import Mathlib

/-!
Verification of the container orchestrator in `tepe.py`.

The development shallowly embeds the program's core components:

* `Tepe.Templating` — the templating engine (`Templating.apply`), including a
  character-level model of Python's `string.Template.safe_substitute` and of
  Python dict-merge (`{**a, **b}`) semantics;
* `Tepe.Resolver` — `Container.get_launch_order`: graph expansion, Kahn-style
  elimination, the cycle error, and the post-order existence check.  Because
  the Python code stores *references* to each container's `requires` list and
  removes elements in place, the embedding threads an explicit store of
  `requires` lists and returns its final state;
* `Tepe.Lifecycle` — `check_requirements`, `create` and `up` as trace-producing
  functions over an abstract runtime (existence and running predicates);
* `Tepe.Nat` — `Container.nat`/`denat`/`mount` with the single-use-iterator
  behaviour of the `ports`/`mountpoints` attributes and an abstract rule table
  (the iptables engine itself is out of scope and is modelled through the
  commands issued, keyed by host port);
* `Tepe.Action` — `execute_action` with fail-fast shell steps.

External collaborators (LXD, iptables, the filesystem, YAML parsing) are
modelled by explicit parameters: an existence predicate, a running set, an IP
lookup, and an exit-code function.
-/

namespace Tepe

/-! ## Variable maps and Python dict semantics -/

/-- A variable scope: an association list in dict insertion order. -/
abbrev VarMap := List (String × String)

/-- Dict lookup: first entry with the given key (keys are unique in maps
built by `dictInsert`). -/
def lookupVar (vars : VarMap) (k : String) : Option String :=
  match vars.find? (fun p => p.1 == k) with
  | some p => some p.2
  | none => none

/-- Python `d[k] = v`: overwrite the value in place if the key is present
(keeping its position), otherwise append. -/
def dictInsert (d : VarMap) (k v : String) : VarMap :=
  if d.any (fun p => p.1 == k) then
    d.map (fun p => if p.1 == k then (k, v) else p)
  else
    d ++ [(k, v)]

/-- Python `\x7b**a, **b\x7d`: start from `a` and assign every entry of `b`
in order; entries of `b` override entries of `a` on key collision. -/
def dictMerge (a b : VarMap) : VarMap :=
  b.foldl (fun d p => dictInsert d p.1 p.2) a

/-! ## `string.Template.safe_substitute`

Source: `Templating.apply` builds `Template(template).safe_substitute(variables)`.
We model the default `Template` pattern: delimiter `$`, identifiers
`[_a-zA-Z][_a-zA-Z0-9]*`; `$$` is an escaped delimiter; `$name` and
`$\x7bname\x7d` substitute when `name` is bound; an unbound or malformed
placeholder is left verbatim (`safe_substitute` never raises). The scanner is
a character-at-a-time state machine. -/

def isIdStart (c : Char) : Bool := c.isAlpha || c == '_'

def isIdChar (c : Char) : Bool := c.isAlphanum || c == '_'

/-- A name is a valid `Template` identifier. -/
def validId : List Char → Bool
  | [] => false
  | c :: cs => isIdStart c && cs.all isIdChar

/-- Scanner state: between patterns, just after `$`, inside `$name`,
or inside `$\x7bname`. -/
inductive TState where
  | normal
  | dollar
  | named (acc : List Char)
  | braced (acc : List Char)
deriving DecidableEq

/-- Substitution for a completed `$name` pattern: the bound value, or the
pattern verbatim. -/
def substNamed (vars : VarMap) (acc : List Char) : List Char :=
  match lookupVar vars (String.mk acc) with
  | some v => v.toList
  | none => '$' :: acc

/-- Substitution for a completed `$\x7bname\x7d` pattern: the bound value when
`name` is a valid identifier and bound, otherwise the pattern verbatim. -/
def substBraced (vars : VarMap) (acc : List Char) : List Char :=
  if validId acc then
    match lookupVar vars (String.mk acc) with
    | some v => v.toList
    | none => '$' :: '{' :: (acc ++ ['}'])
  else '$' :: '{' :: (acc ++ ['}'])

/-- One scanner step: output emitted for this character and the next state. -/
def stepT (vars : VarMap) : TState → Char → List Char × TState
  | TState.normal, c =>
    if c == '$' then ([], TState.dollar) else ([c], TState.normal)
  | TState.dollar, c =>
    if c == '$' then (['$'], TState.normal)
    else if c == '{' then ([], TState.braced [])
    else if isIdStart c then ([], TState.named [c])
    else (['$', c], TState.normal)
  | TState.named acc, c =>
    if isIdChar c then ([], TState.named (acc ++ [c]))
    else if c == '$' then (substNamed vars acc, TState.dollar)
    else (substNamed vars acc ++ [c], TState.normal)
  | TState.braced acc, c =>
    if c == '}' then (substBraced vars acc, TState.normal)
    else if isIdChar c then ([], TState.braced (acc ++ [c]))
    else if c == '$' then ('$' :: '{' :: acc, TState.dollar)
    else ('$' :: '{' :: acc ++ [c], TState.normal)

/-- Output at end of template for a pending state: unterminated patterns are
left verbatim. -/
def flushT (vars : VarMap) : TState → List Char
  | TState.normal => []
  | TState.dollar => ['$']
  | TState.named acc => substNamed vars acc
  | TState.braced acc => '$' :: '{' :: acc

/-- Run the scanner over the template. -/
def runT (vars : VarMap) (st : TState) : List Char → List Char
  | [] => flushT vars st
  | c :: cs =>
    let p := stepT vars st c
    p.1 ++ runT vars p.2 cs

/-- `safe_substitute` on a string. -/
def safeSubstitute (vars : VarMap) (template : String) : String :=
  String.mk (runT vars TState.normal template.data)

/-! ## `Templating` -/

/-- `Templating` holds the global variables loaded from the variables file
(the source field is called `variables`, a reserved word in Lean). -/
structure Templating where
  vars : VarMap

/-- The merged scope built by `Templating.apply` (source lines 30–34):
`variables = \x7b**container_variables, **self.variables\x7d`, then
`variables = \x7b**variables, **rpc_variables\x7d` when call parameters are
present.  Note the global scope overrides the container scope. -/
def Templating.mergedVars (t : Templating) (container_variables rpc_variables : Option VarMap) :
    VarMap :=
  let cv := container_variables.getD []
  let vars := dictMerge cv t.vars
  match rpc_variables with
  | none => vars
  | some rpc => dictMerge vars rpc

/-- `Templating.apply` (source lines 29–36). -/
def Templating.apply (t : Templating) (template : String)
    (container_variables rpc_variables : Option VarMap) : String :=
  safeSubstitute (t.mergedVars container_variables rpc_variables) template

inductive Tok where
  | lit (c : Char)
  | escaped
  | invalid
  | namedTok (n : List Char)
  | bracedTok (n : List Char)
  | bracedOpen (n : List Char)
deriving DecidableEq

def renderTok (vars : VarMap) : Tok → List Char
  | Tok.lit c => [c]
  | Tok.escaped => ['$']
  | Tok.invalid => ['$']
  | Tok.namedTok n => substNamed vars n
  | Tok.bracedTok n => substBraced vars n
  | Tok.bracedOpen n => '$' :: '{' :: n

def lexStep : TState → Char → List Tok × TState
  | TState.normal, c =>
    if c == '$' then ([], TState.dollar) else ([Tok.lit c], TState.normal)
  | TState.dollar, c =>
    if c == '$' then ([Tok.escaped], TState.normal)
    else if c == '{' then ([], TState.braced [])
    else if isIdStart c then ([], TState.named [c])
    else ([Tok.invalid, Tok.lit c], TState.normal)
  | TState.named acc, c =>
    if isIdChar c then ([], TState.named (acc ++ [c]))
    else if c == '$' then ([Tok.namedTok acc], TState.dollar)
    else ([Tok.namedTok acc, Tok.lit c], TState.normal)
  | TState.braced acc, c =>
    if c == '}' then ([Tok.bracedTok acc], TState.normal)
    else if isIdChar c then ([], TState.braced (acc ++ [c]))
    else if c == '$' then ([Tok.bracedOpen acc], TState.dollar)
    else ([Tok.bracedOpen acc, Tok.lit c], TState.normal)

def lexFlush : TState → List Tok
  | TState.normal => []
  | TState.dollar => [Tok.invalid]
  | TState.named acc => [Tok.namedTok acc]
  | TState.braced acc => [Tok.bracedOpen acc]

def lexRun (st : TState) : List Char → List Tok
  | [] => lexFlush st
  | c :: cs =>
    let p := lexStep st c
    p.1 ++ lexRun p.2 cs

/-- The definition store: container id to its `requires` list. -/
abbrev ReqStore := List (String × List String)

def reqOf (g : ReqStore) (i : String) : List String :=
  match g.find? (fun p => p.1 == i) with
  | some p => p.2
  | none => []

def addKeys : List String → List String → List String
  | keys, [] => keys
  | keys, r :: rs => if keys.contains r then addKeys keys rs else addKeys (keys ++ [r]) rs

def expandPass (g : ReqStore) : List String → List String → List String
  | [], keys => keys
  | c :: cs, keys => expandPass g cs (addKeys keys (reqOf g c))

def expand (g : ReqStore) : Nat → List String → List String
  | 0, keys => keys
  | fuel + 1, keys =>
    let keys2 := expandPass g keys keys
    if keys2.length = keys.length then keys else expand g fuel keys2

def fuelBound (g : ReqStore) (root : String) : Nat :=
  (reqOf g root).length + (g.map (fun p => p.2.length)).sum + 1

def launchKeys (g : ReqStore) (root : String) : List String :=
  expand g (fuelBound g root) (addKeys [] (reqOf g root))

def storeErase (store : ReqStore) (keys : List String) (l : String) : ReqStore :=
  store.map (fun p => if keys.contains p.1 then (p.1, p.2.erase l) else p)

def phase2Go : Nat → ReqStore → List String → List String →
    Except String (List String) × ReqStore
  | 0, store, keys, acc =>
    if keys.isEmpty then (Except.ok acc, store)
    else (Except.error "Unresolvable requirements", store)
  | fuel + 1, store, keys, acc =>
    if keys.isEmpty then (Except.ok acc, store)
    else
      match keys.find? (fun c => (reqOf store c).isEmpty) with
      | none => (Except.error "Unresolvable requirements", store)
      | some l => phase2Go fuel (storeErase store (keys.erase l) l) (keys.erase l) (acc ++ [l])

def phase2 (store : ReqStore) (keys acc : List String) :
    Except String (List String) × ReqStore :=
  phase2Go keys.length store keys acc

def missingMsg (nm : String → String) (l : String) : String :=
  "Requires " ++ nm l ++ " (" ++ l ++ "), but it does not exist"

def get_launch_order (g : ReqStore) (nm : String → String) (ex : String → Bool)
    (root : String) : Except String (List String) × ReqStore :=
  match phase2 g (launchKeys g root) [] with
  | (Except.ok order, store) =>
    match order.find? (fun l => !(ex l)) with
    | some l => (Except.error (missingMsg nm l), store)
    | none => (Except.ok order, store)
  | (Except.error e, store) => (Except.error e, store)

def Edge (g : ReqStore) (a b : String) : Prop := b ∈ reqOf g a

def Reach (g : ReqStore) (root i : String) : Prop := Relation.TransGen (Edge g) root i

/-- Fixture: a three-container definition set whose requirement graph has the
cycle a -> b -> a, reachable from root r. -/
def cycleG : ReqStore := [("r", ["a"]), ("a", ["b"]), ("b", ["a"])]

/-- Fixture: an acyclic chain r -> a -> b. -/
def chainG : ReqStore := [("r", ["a"]), ("a", ["b"]), ("b", [])]

/-- Fixture: the same acyclic chain, but container a lists its requirement b
twice. -/
def dupG : ReqStore := [("r", ["a"]), ("a", ["b", "b"]), ("b", [])]

/-! ## Lifecycle model

`create` and `up` as trace-producing functions.  The runtime is abstracted by
an existence predicate `ex`, a running set, and per-id display names `nm`;
mounting, the settle sleep, NAT installation and action execution appear as
opaque trace events (they are modelled in detail separately). -/

inductive Ev where
  | log (name msg : String)
  | launch (box cid : String)
  | start (cid : String)
  | sleepEv
  | natEv (cid : String)
  | mountEv (cid : String)
  | actionEv (cid act : String)
deriving DecidableEq

def isLaunch : Ev → Bool
  | Ev.launch _ _ => true
  | _ => false

def isStart : Ev → Bool
  | Ev.start _ => true
  | _ => false

/-- One step of `Container.check_requirements` (source lines 148–158). -/
def checkStep (nm : String → String) (ex running : String → Bool) (selfName : String)
    (ignore_stopped : Bool) (st : List Ev × Bool) (r : String) : List Ev × Bool :=
  if !(ex r) then
    (st.1 ++ [Ev.log selfName ("Requires " ++ nm r ++ " (" ++ r ++ "), but it does not exist")],
      false)
  else if !ignore_stopped && !(running r) then
    (st.1 ++ [Ev.log selfName ("Requires " ++ nm r ++ " (" ++ r ++ "), but it is not running")],
      false)
  else st

/-- `Container.check_requirements`: logs a diagnostic per unmet requirement and
returns whether all requirements are met. -/
def check_requirements (nm : String → String) (ex running : String → Bool) (selfName : String)
    (requires : List String) (ignore_stopped : Bool) : List Ev × Bool :=
  requires.foldl (checkStep nm ex running selfName ignore_stopped) ([], true)

/-- Static definition data used by `create`. -/
structure ContainerData where
  id : String
  name : String
  box : String
  requires : List String
deriving DecidableEq

/-- `Container.create` (source lines 207–220): the requirement check uses the
default `ignore_stopped = False`; on requirement failure nothing is launched;
otherwise the runtime launch is invoked and, if it succeeds, the mount /
settle / NAT / `create` / `up` sequence runs. -/
def create (c : ContainerData) (nm : String → String) (ex running : String → Bool)
    (launchOk : Bool) : List Ev :=
  let hd := [Ev.log c.name ("Create new container " ++ c.id ++ " from " ++ c.box)]
  let cr := check_requirements nm ex running c.name c.requires false
  if !cr.2 then hd ++ cr.1 ++ [Ev.log c.name "Requirements not met"]
  else if launchOk then
    hd ++ cr.1 ++ [Ev.launch c.box c.id, Ev.mountEv c.id,
      Ev.log c.name "Waiting for network to calm down", Ev.sleepEv, Ev.natEv c.id,
      Ev.actionEv c.id "create", Ev.actionEv c.id "up", Ev.log c.name "Done"]
  else hd ++ cr.1 ++ [Ev.launch c.box c.id, Ev.log c.name "Creation failed"]

/-- The start sequence shared by `up` paths (source lines 241–247). -/
def startBlock (nm : String → String) (cid : String) : List Ev :=
  [Ev.log (nm cid) "Starting...", Ev.start cid,
    Ev.log (nm cid) "Waiting for network to calm down", Ev.sleepEv, Ev.natEv cid,
    Ev.actionEv cid "up", Ev.log (nm cid) "Done"]

/-- `Container.up(False)` as invoked on each dependency (source lines 230–247
with `recursive = False`). -/
def up_nonrec (g : ReqStore) (nm : String → String) (ex : String → Bool)
    (running : List String) (cid : String) : List Ev × List String :=
  if running.contains cid then ([Ev.log (nm cid) "Already running"], running)
  else
    let cr := check_requirements nm ex (fun r => running.contains r) (nm cid) (reqOf g cid) false
    if !cr.2 then (cr.1 ++ [Ev.log (nm cid) "Requirements not met"], running)
    else (cr.1 ++ startBlock nm cid, running ++ [cid])

/-- `Container.up` (source lines 230–247).  The third component is the
uncaught exception raised by `get_launch_order`, if any. -/
def up (g : ReqStore) (nm : String → String) (ex : String → Bool)
    (running : List String) (cid : String) (recursive : Bool) :
    List Ev × List String × Option String :=
  if running.contains cid then ([Ev.log (nm cid) "Already running"], running, none)
  else
    let cr := check_requirements nm ex (fun r => running.contains r) (nm cid) (reqOf g cid)
      recursive
    if !cr.2 then (cr.1 ++ [Ev.log (nm cid) "Requirements not met"], running, none)
    else if recursive then
      match (get_launch_order g nm ex cid).1 with
      | Except.error e => (cr.1, running, some e)
      | Except.ok order =>
        let st := order.foldl
          (fun st r =>
            if st.2.contains r then st
            else
              let p := up_nonrec g nm ex st.2 r
              (st.1 ++ p.1, p.2))
          (cr.1, running)
        (st.1 ++ startBlock nm cid, st.2 ++ [cid], none)
    else (cr.1 ++ startBlock nm cid, running ++ [cid], none)

/-- Fixture for the create counterexample: one requirement that exists but is
not running. -/
def stoppedReqC : ContainerData := ⟨"c", "C", "img", ["b"]⟩

/-- Fixture: root r requires a; a is defined but will be absent from the
runtime. -/
def missG : ReqStore := [("r", ["a"]), ("a", [])]

/-! ## Port mapping (NAT) model

The iptables engine is out of scope; its rule table is modelled abstractly as
a list of DNAT rules keyed by the host port (`to_port`), which is how
`Port.delete` selects the rules to remove (the source matches the
`dpt:<to_port>` annotation of each listed rule). -/

structure PortData where
  device : String
  protocol : String
  fromPort : Nat
  toPort : Nat
  comment : String
deriving DecidableEq

structure NatRule where
  protocol : String
  toPort : Nat
  dest : String
  comment : String
deriving DecidableEq

inductive NEv where
  | log (name msg : String)
  | natDelete (toPort : Nat)
  | natCreate (toPort : Nat) (dest : String)
  | mountAdd (name : String)
  | saveEv
deriving DecidableEq

/-- `Port.delete` (source lines 87–93): remove every rule whose destination
port annotation matches `to_port`. -/
def Port.delete (rules : List NatRule) (p : PortData) : List NatRule :=
  rules.filter (fun r => r.toPort != p.toPort)

/-- `Port.create` (source lines 95–101): append a DNAT rule towards
`ip:from_port`. -/
def Port.create (rules : List NatRule) (p : PortData) (ip : String) : List NatRule :=
  rules ++ [⟨p.protocol, p.toPort, ip ++ ":" ++ toString p.fromPort, p.comment⟩]

/-- The runtime iterator state of a `Container` object: `ports` and
`mountpoints` hold the *remaining* elements of the single-use `map` iterators
created in `Container.__init__` (source lines 136–140). -/
structure ContainerIter where
  ports : List PortData
  mountpoints : List (String × String × String)
deriving DecidableEq

/-- `Container.nat` (source lines 259–266): no-op when not running; otherwise
consume the ports iterator, deleting then re-creating the rules of each
port. -/
def natC (selfName : String) (running : Bool) (ipOf : String → String)
    (c : ContainerIter) (rules : List NatRule) :
    ContainerIter × List NatRule × List NEv :=
  if !running then (c, rules, [NEv.log selfName "Container not running, not NAT needed"])
  else
    let res := c.ports.foldl
      (fun st p =>
        (Port.create (Port.delete st.1 p) p (ipOf p.device),
         st.2 ++ [NEv.log selfName ("Forwarding " ++ toString p.toPort ++ " to " ++
             ipOf p.device ++ ":" ++ toString p.fromPort ++ " (" ++ p.device ++ ")"),
           NEv.natDelete p.toPort,
           NEv.natCreate p.toPort (ipOf p.device ++ ":" ++ toString p.fromPort)]))
      (rules, [])
    ({ c with ports := [] }, res.1, res.2)

/-- `Container.denat` (source lines 268–271): consume the ports iterator,
deleting each port's rules. -/
def denatC (selfName : String) (ipOf : String → String) (c : ContainerIter)
    (rules : List NatRule) : ContainerIter × List NatRule × List NEv :=
  let res := c.ports.foldl
    (fun st p =>
      (Port.delete st.1 p,
       st.2 ++ [NEv.log selfName ("Removing forward from " ++ toString p.toPort ++ " to " ++
           ipOf p.device ++ ":" ++ toString p.fromPort ++ " (" ++ p.device ++ ")"),
         NEv.natDelete p.toPort]))
    (rules, [])
  ({ c with ports := [] }, res.1, res.2)

/-- `Container.mount` (source lines 200–205): consume the mountpoints
iterator, adding each not-yet-mounted device, then save. -/
def mountC (selfName : String) (c : ContainerIter) (devices : List String) :
    ContainerIter × List String × List NEv :=
  let res := c.mountpoints.foldl
    (fun st mp =>
      if st.1.contains mp.1 then st
      else (st.1 ++ [mp.1], st.2 ++ [NEv.log selfName ("Mounting " ++ mp.1), NEv.mountAdd mp.1]))
    (devices, [])
  ({ c with mountpoints := [] }, res.1, res.2 ++ [NEv.saveEv])

/-! ## Action executor -/

/-- An action step: a templated shell line, or a special action (RPC /
file-drop), whose side effects are opaque here. -/
inductive Step where
  | shellLine (s : String)
  | special
deriving DecidableEq

inductive AEv where
  | log (name msg : String)
  | execEv (cid line : String)
  | specialEv (cid : String)
deriving DecidableEq

/-- The step loop of `Container.execute_action` (source lines 284–292): a
shell line is templated with the container variables and the call parameters,
logged and executed; a non-zero exit logs the failure and aborts the
remaining steps; a special action is invoked and the loop continues. -/
def runSteps (t : Templating) (cv params : VarMap) (cid selfName : String)
    (exitOf : String → Int) : List Step → List AEv
  | [] => []
  | Step.shellLine s :: rest =>
    let line := t.apply s (some cv) (some params)
    [AEv.log selfName line, AEv.execEv cid line] ++
      (if exitOf line = 0 then runSteps t cv params cid selfName exitOf rest
       else [AEv.log selfName "Execution failed"])
  | Step.special :: rest => AEv.specialEv cid :: runSteps t cv params cid selfName exitOf rest

/-- `Container.execute_action` (source lines 279–292). -/
def execute_action (t : Templating) (actions : List (String × List Step))
    (cid selfName : String) (cv params : VarMap) (exitOf : String → Int)
    (action : String) : List AEv :=
  match actions.find? (fun p => p.1 == action) with
  | none => [AEv.log selfName ("Action \"" ++ action ++ "\" does not exist")]
  | some p =>
    AEv.log selfName ("Execute action \"" ++ action ++ "\"") ::
      runSteps t cv params cid selfName exitOf p.2

/-! ## Lemmas and claim theorems -/

theorem comp_key_eq (k v k' : String) :
    ((fun p : String × String => p.1 == k') ∘ fun p : String × String => if p.1 == k then (k, v) else p)
      = fun p : String × String => p.1 == k' := by
  funext p
  simp only [Function.comp_apply]
  by_cases h : p.1 = k
  · simp [h]
  · simp [h]

theorem lookupVar_dictInsert (d : VarMap) (k v k' : String) :
    lookupVar (dictInsert d k v) k' = if k' = k then some v else lookupVar d k' := by
  unfold dictInsert
  by_cases hk : d.any (fun p => p.1 == k) = true
  · rw [if_pos hk]
    unfold lookupVar
    rw [List.find?_map, comp_key_eq k v k']
    by_cases hk' : k' = k
    · subst hk'
      obtain ⟨p, hp, hpk⟩ := List.any_eq_true.mp hk
      cases hfind : d.find? (fun p => p.1 == k') with
      | none =>
        rw [List.find?_eq_none] at hfind
        exact absurd hpk (hfind p hp)
      | some q =>
        have hq := List.find?_some hfind
        simp only [beq_iff_eq] at hq
        simp [hq]
    · rw [if_neg hk']
      cases hfind : d.find? (fun p => p.1 == k') with
      | none => simp
      | some q =>
        have hq := List.find?_some hfind
        simp only [beq_iff_eq] at hq
        have hqk : ¬(q.1 = k) := by rw [hq]; exact hk'
        simp [hqk]
  · rw [if_neg hk]
    unfold lookupVar
    rw [List.find?_append]
    have hnone : d.find? (fun p => p.1 == k) = none := by
      rw [List.find?_eq_none]
      intro x hx hpx
      exact hk (List.any_eq_true.mpr ⟨x, hx, hpx⟩)
    by_cases hk' : k' = k
    · subst hk'
      rw [hnone]
      simp
    · have h1 : (([(k, v)] : VarMap).find? (fun p => p.1 == k')) = none := by
        simp [List.find?_eq_none]
        exact fun h => hk' h.symm
      rw [h1]
      cases d.find? (fun p => p.1 == k') <;> simp [hk']

theorem lookupVar_cons (q : String × String) (b : VarMap) (k : String) :
    lookupVar (q :: b) k = if q.1 = k then some q.2 else lookupVar b k := by
  by_cases h : q.1 = k
  · have hb : (q.1 == k) = true := beq_iff_eq.mpr h
    simp [lookupVar, List.find?, hb, h]
  · have hb : (q.1 == k) = false := beq_eq_false_iff_ne.mpr h
    simp [lookupVar, List.find?, hb, h]

theorem lookupVar_eq_none_of_not_mem (b : VarMap) (k : String) (hq : k ∉ b.map Prod.fst) :
    lookupVar b k = none := by
  unfold lookupVar
  have : b.find? (fun p => p.1 == k) = none := by
    rw [List.find?_eq_none]
    intro x hx hxk
    simp only [beq_iff_eq] at hxk
    exact hq (hxk ▸ List.mem_map_of_mem Prod.fst hx)
  rw [this]

theorem lookupVar_dictMerge (b : VarMap) : ∀ (a : VarMap), (b.map Prod.fst).Nodup → ∀ k,
    lookupVar (dictMerge a b) k = (lookupVar b k).or (lookupVar a k) := by
  induction b with
  | nil => intro a _ k; simp [dictMerge, lookupVar]
  | cons q b ih =>
    intro a hb k
    have hb' : (b.map Prod.fst).Nodup := (List.nodup_cons.mp hb).2
    have hq : q.1 ∉ b.map Prod.fst := (List.nodup_cons.mp hb).1
    show lookupVar (dictMerge (dictInsert a q.1 q.2) b) k = _
    rw [ih _ hb', lookupVar_dictInsert, lookupVar_cons]
    by_cases hk : k = q.1
    · subst hk
      rw [lookupVar_eq_none_of_not_mem b q.1 hq]
      simp
    · have hqk : ¬(q.1 = k) := fun h => hk h.symm
      simp [hqk, hk]

theorem mergedVars_lookup (t : Templating) (cv rpc : VarMap) (k : String)
    (hg : (t.vars.map Prod.fst).Nodup) (hrpc : (rpc.map Prod.fst).Nodup) :
    lookupVar (t.mergedVars (some cv) (some rpc)) k
      = (lookupVar rpc k).or ((lookupVar t.vars k).or (lookupVar cv k)) := by
  unfold Templating.mergedVars
  simp only [Option.getD_some]
  rw [lookupVar_dictMerge _ _ hrpc, lookupVar_dictMerge _ _ hg]

/-- C1, counterexample: applying the Templating Engine with global scope
a=1, container scope a=2,b=3 and call parameters b=4 substitutes "$a $b"
to "1 4", not "2 4" as the claim states: in `Templating.mergedVars` the
global variables override the container variables. -/
theorem C1_counterexample :
    Templating.apply ⟨[("a","1")]⟩ "$a $b" (some [("a","2"),("b","3")]) (some [("b","4")]) = "1 4" ∧
    Templating.apply ⟨[("a","1")]⟩ "$a $b" (some [("a","2"),("b","3")]) (some [("b","4")]) ≠ "2 4" := by
  refine ⟨rfl, ?_⟩
  decide

/-- C1 (amended): variable layering is call parameters over global
variables over container variables — `Templating.apply` resolves a key from
the call parameters first, then the global scope, then the container scope —
and the claim's example substitution therefore yields "1 4". -/
theorem C1_layering :
    (∀ (t : Templating) (cv rpc : VarMap) (k : String),
        (t.vars.map Prod.fst).Nodup → (rpc.map Prod.fst).Nodup →
        lookupVar (t.mergedVars (some cv) (some rpc)) k
          = (lookupVar rpc k).or ((lookupVar t.vars k).or (lookupVar cv k)))
    ∧ Templating.apply ⟨[("a","1")]⟩ "$a $b" (some [("a","2"),("b","3")]) (some [("b","4")]) = "1 4" := by
  refine ⟨?_, rfl⟩
  intro t cv rpc k hg hrpc
  exact mergedVars_lookup t cv rpc k hg hrpc

/-- C1 witness: the layering theorem instantiated at the claim's example
scopes. -/
theorem C1_layering_witness :
    lookupVar (Templating.mergedVars ⟨[("a","1")]⟩ (some [("a","2"),("b","3")]) (some [("b","4")])) "a"
      = (lookupVar [("b","4")] "a").or ((lookupVar [("a","1")] "a").or (lookupVar [("a","2"),("b","3")] "a")) :=
  C1_layering.1 ⟨[("a","1")]⟩ [("a","2"),("b","3")] [("b","4")] "a" (by decide) (by decide)

theorem stepT_render (vars : VarMap) (st : TState) (c : Char) :
    (stepT vars st c).1 = ((lexStep st c).1).flatMap (renderTok vars)
      ∧ (stepT vars st c).2 = (lexStep st c).2 := by
  cases st with
  | normal =>
    by_cases h : (c == '$') = true <;> simp [stepT, lexStep, renderTok, h]
  | dollar =>
    by_cases h1 : (c == '$') = true
    · simp [stepT, lexStep, renderTok, h1]
    · by_cases h2 : (c == '{') = true
      · simp [stepT, lexStep, renderTok, h1, h2]
      · by_cases h3 : isIdStart c = true <;>
          simp [stepT, lexStep, renderTok, h1, h2, h3]
  | named acc =>
    by_cases h1 : isIdChar c = true
    · simp [stepT, lexStep, renderTok, h1]
    · by_cases h2 : (c == '$') = true <;>
        simp [stepT, lexStep, renderTok, h1, h2]
  | braced acc =>
    by_cases h1 : (c == '}') = true
    · simp [stepT, lexStep, renderTok, h1]
    · by_cases h2 : isIdChar c = true
      · simp [stepT, lexStep, renderTok, h1, h2]
      · by_cases h3 : (c == '$') = true <;>
          simp [stepT, lexStep, renderTok, h1, h2, h3]

theorem flushT_render (vars : VarMap) (st : TState) :
    flushT vars st = (lexFlush st).flatMap (renderTok vars) := by
  cases st <;> simp [flushT, lexFlush, renderTok]

theorem runT_render (vars : VarMap) (l : List Char) : ∀ st : TState,
    runT vars st l = (lexRun st l).flatMap (renderTok vars) := by
  induction l with
  | nil => intro st; simp [runT, lexRun, flushT_render]
  | cons c cs ih =>
    intro st
    show (stepT vars st c).1 ++ runT vars (stepT vars st c).2 cs = _
    rw [(stepT_render vars st c).1, (stepT_render vars st c).2, ih]
    show _ = ((lexStep st c).1 ++ lexRun (lexStep st c).2 cs).flatMap (renderTok vars)
    rw [List.flatMap_append]

/-- C10: templating is total on unbound placeholders.  `safeSubstitute`
always returns (it equals the rendering of the scanner's token stream), and
a named or braced placeholder whose name is bound in no scope renders as its
own verbatim text rather than failing. -/
theorem C10_total_verbatim :
    (∀ (vars : VarMap) (template : String),
        safeSubstitute vars template
          = String.mk ((lexRun TState.normal template.data).flatMap (renderTok vars)))
    ∧ (∀ (vars : VarMap) (n : List Char), lookupVar vars (String.mk n) = none →
        renderTok vars (Tok.namedTok n) = '$' :: n ∧
        renderTok vars (Tok.bracedTok n) = '$' :: '{' :: (n ++ ['}'])) := by
  constructor
  · intro vars template
    unfold safeSubstitute
    rw [runT_render]
  · intro vars n hnone
    constructor
    · simp [renderTok, substNamed, hnone]
    · simp only [renderTok, substBraced, hnone]
      split <;> rfl

/-- C10 witness: the refinement instantiated on the template "$y" with a
scope that does not bind y. -/
theorem C10_witness :
    (safeSubstitute [("x","1")] "$y"
      = String.mk ((lexRun TState.normal "$y".data).flatMap (renderTok [("x","1")])))
    ∧ renderTok [("x","1")] (Tok.namedTok ['y']) = '$' :: ['y']
    ∧ renderTok [("x","1")] (Tok.bracedTok ['y']) = '$' :: '{' :: (['y'] ++ ['}']) :=
  ⟨C10_total_verbatim.1 [("x","1")] "$y",
   (C10_total_verbatim.2 [("x","1")] ['y'] (by decide)).1,
   (C10_total_verbatim.2 [("x","1")] ['y'] (by decide)).2⟩

theorem reqOf_nodup (g : ReqStore) (hg : ∀ p ∈ g, p.2.Nodup) (c : String) :
    (reqOf g c).Nodup := by
  unfold reqOf
  cases h : g.find? (fun p => p.1 == c) with
  | none => exact List.nodup_nil
  | some p => exact hg p (List.mem_of_find?_eq_some h)

theorem reqOf_subset_flatMap (g : ReqStore) (c : String) :
    ∀ r ∈ reqOf g c, r ∈ g.flatMap (fun p => p.2) := by
  intro r hr
  unfold reqOf at hr
  cases h : g.find? (fun p => p.1 == c) with
  | none => rw [h] at hr; cases hr
  | some p =>
    rw [h] at hr
    exact List.mem_flatMap.mpr ⟨p, List.mem_of_find?_eq_some h, hr⟩

theorem contains_mem {l : List String} {a : String} : l.contains a = true ↔ a ∈ l := by
  simp [List.contains, List.elem_iff]

theorem mem_addKeys_left {a : String} : ∀ (rs keys : List String), a ∈ keys → a ∈ addKeys keys rs := by
  intro rs
  induction rs with
  | nil => intro keys h; exact h
  | cons r rs ih =>
    intro keys h
    unfold addKeys
    split
    · exact ih keys h
    · exact ih _ (List.mem_append_left _ h)

theorem mem_addKeys_right {a : String} : ∀ (rs keys : List String), a ∈ rs → a ∈ addKeys keys rs := by
  intro rs
  induction rs with
  | nil => intro keys h; cases h
  | cons r rs ih =>
    intro keys h
    rcases List.mem_cons.mp h with rfl | h'
    · unfold addKeys
      split
      · next hc => exact mem_addKeys_left rs keys (contains_mem.mp hc)
      · exact mem_addKeys_left rs _ (List.mem_append_right _ (List.mem_singleton.mpr rfl))
    · unfold addKeys
      split
      · exact ih keys h'
      · exact ih _ h'

theorem mem_of_mem_addKeys {a : String} : ∀ (rs keys : List String),
    a ∈ addKeys keys rs → a ∈ keys ∨ a ∈ rs := by
  intro rs
  induction rs with
  | nil => intro keys h; exact Or.inl h
  | cons r rs ih =>
    intro keys h
    unfold addKeys at h
    split at h
    · rcases ih keys h with h' | h'
      · exact Or.inl h'
      · exact Or.inr (List.mem_cons_of_mem _ h')
    · rcases ih _ h with h' | h'
      · rcases List.mem_append.mp h' with h'' | h''
        · exact Or.inl h''
        · exact Or.inr (List.mem_cons.mpr (Or.inl (List.mem_singleton.mp h'')))
      · exact Or.inr (List.mem_cons_of_mem _ h')

theorem addKeys_nodup : ∀ (rs keys : List String), keys.Nodup → (addKeys keys rs).Nodup := by
  intro rs
  induction rs with
  | nil => intro keys h; exact h
  | cons r rs ih =>
    intro keys h
    unfold addKeys
    split
    · exact ih keys h
    · next hc =>
      refine ih _ (List.Nodup.append h (List.nodup_singleton r) ?_)
      intro x hx hx'
      rw [List.mem_singleton] at hx'
      subst hx'
      exact hc (contains_mem.mpr hx)

theorem addKeys_length_le : ∀ (rs keys : List String), keys.length ≤ (addKeys keys rs).length := by
  intro rs
  induction rs with
  | nil => intro keys; exact Nat.le_refl _
  | cons r rs ih =>
    intro keys
    unfold addKeys
    split
    · exact ih keys
    · calc keys.length ≤ (keys ++ [r]).length := by simp
        _ ≤ _ := ih _

theorem addKeys_eq_of_length : ∀ (rs keys : List String),
    (addKeys keys rs).length = keys.length → addKeys keys rs = keys := by
  intro rs
  induction rs with
  | nil => intro keys _; rfl
  | cons r rs ih =>
    intro keys h
    by_cases hc : keys.contains r = true
    · simp only [addKeys, hc, if_true] at h ⊢
      exact ih keys h
    · exfalso
      have hm : r ∉ keys := fun hmem => hc (contains_mem.mpr hmem)
      simp [addKeys, hm] at h
      have h1 := addKeys_length_le rs (keys ++ [r])
      have h2 : (addKeys (keys ++ [r]) rs).length = keys.length := by rw [h]
      simp at h1
      omega

theorem addKeys_subset_of_eq : ∀ (rs keys : List String),
    addKeys keys rs = keys → ∀ r ∈ rs, r ∈ keys := by
  intro rs
  induction rs with
  | nil => intro keys _ r hr; cases hr
  | cons r rs ih =>
    intro keys h r' hr'
    by_cases hc : keys.contains r = true
    · simp only [addKeys, hc, if_true] at h
      rcases List.mem_cons.mp hr' with rfl | h'
      · exact contains_mem.mp hc
      · exact ih keys h r' h'
    · exfalso
      have hm : r ∉ keys := fun hmem => hc (contains_mem.mpr hmem)
      simp [addKeys, hm] at h
      have h1 := addKeys_length_le rs (keys ++ [r])
      have h2 : (addKeys (keys ++ [r]) rs).length = keys.length := by rw [h]
      simp at h1
      omega

theorem mem_expandPass_left {g : ReqStore} {a : String} :
    ∀ (cs keys : List String), a ∈ keys → a ∈ expandPass g cs keys := by
  intro cs
  induction cs with
  | nil => intro keys h; exact h
  | cons c cs ih =>
    intro keys h
    exact ih _ (mem_addKeys_left _ _ h)

theorem mem_of_mem_expandPass {g : ReqStore} {a : String} :
    ∀ (cs keys : List String), a ∈ expandPass g cs keys →
      a ∈ keys ∨ ∃ c ∈ cs, a ∈ reqOf g c := by
  intro cs
  induction cs with
  | nil => intro keys h; exact Or.inl h
  | cons c cs ih =>
    intro keys h
    rcases ih _ h with h' | ⟨c', hc', ha⟩
    · rcases mem_of_mem_addKeys _ _ h' with h'' | h''
      · exact Or.inl h''
      · exact Or.inr ⟨c, List.mem_cons_self c cs, h''⟩
    · exact Or.inr ⟨c', List.mem_cons_of_mem _ hc', ha⟩

theorem expandPass_nodup {g : ReqStore} :
    ∀ (cs keys : List String), keys.Nodup → (expandPass g cs keys).Nodup := by
  intro cs
  induction cs with
  | nil => intro keys h; exact h
  | cons c cs ih => intro keys h; exact ih _ (addKeys_nodup _ _ h)

theorem expandPass_length_le {g : ReqStore} :
    ∀ (cs keys : List String), keys.length ≤ (expandPass g cs keys).length := by
  intro cs
  induction cs with
  | nil => intro keys; exact Nat.le_refl _
  | cons c cs ih =>
    intro keys
    exact Nat.le_trans (addKeys_length_le _ _) (ih _)

theorem expandPass_eq_of_length {g : ReqStore} :
    ∀ (cs keys : List String), (expandPass g cs keys).length = keys.length →
      expandPass g cs keys = keys := by
  intro cs
  induction cs with
  | nil => intro keys _; rfl
  | cons c cs ih =>
    intro keys h
    show expandPass g cs (addKeys keys (reqOf g c)) = keys
    have h1 : (addKeys keys (reqOf g c)).length ≤ (expandPass g cs (addKeys keys (reqOf g c))).length :=
      expandPass_length_le _ _
    have h2 : keys.length ≤ (addKeys keys (reqOf g c)).length := addKeys_length_le _ _
    have h3 : (expandPass g cs (addKeys keys (reqOf g c))).length = keys.length := h
    have h4 : (addKeys keys (reqOf g c)).length = keys.length := by omega
    have h5 : addKeys keys (reqOf g c) = keys := addKeys_eq_of_length _ _ h4
    rw [h5]
    rw [h5] at h3
    exact ih keys h3

theorem expandPass_closed_of_eq {g : ReqStore} :
    ∀ (cs keys : List String), expandPass g cs keys = keys →
      ∀ c ∈ cs, ∀ r ∈ reqOf g c, r ∈ keys := by
  intro cs
  induction cs with
  | nil => intro keys _ c hc; cases hc
  | cons c cs ih =>
    intro keys h c' hc' r hr
    have h3 : (expandPass g cs (addKeys keys (reqOf g c))).length = keys.length := by
      rw [show expandPass g cs (addKeys keys (reqOf g c)) = expandPass g (c :: cs) keys from rfl, h]
    have h1 : (addKeys keys (reqOf g c)).length ≤ (expandPass g cs (addKeys keys (reqOf g c))).length :=
      expandPass_length_le _ _
    have h2 : keys.length ≤ (addKeys keys (reqOf g c)).length := addKeys_length_le _ _
    have h4 : (addKeys keys (reqOf g c)).length = keys.length := by omega
    have h5 : addKeys keys (reqOf g c) = keys := addKeys_eq_of_length _ _ h4
    rcases List.mem_cons.mp hc' with rfl | hc''
    · exact addKeys_subset_of_eq _ _ h5 r hr
    · have h6 : expandPass g cs keys = keys := by
        have := h
        show expandPass g cs keys = keys
        calc expandPass g cs keys = expandPass g cs (addKeys keys (reqOf g c)) := by rw [h5]
          _ = keys := by rw [← h5] at h ⊢; exact h
      exact ih keys h6 c' hc'' r hr

theorem mem_expand {g : ReqStore} {a : String} :
    ∀ (fuel : Nat) (keys : List String), a ∈ keys → a ∈ expand g fuel keys := by
  intro fuel
  induction fuel with
  | zero => intro keys h; exact h
  | succ fuel ih =>
    intro keys h
    show a ∈ (if (expandPass g keys keys).length = keys.length then keys
      else expand g fuel (expandPass g keys keys))
    split
    · exact h
    · exact ih _ (mem_expandPass_left _ _ h)

theorem expand_nodup {g : ReqStore} :
    ∀ (fuel : Nat) (keys : List String), keys.Nodup → (expand g fuel keys).Nodup := by
  intro fuel
  induction fuel with
  | zero => intro keys h; exact h
  | succ fuel ih =>
    intro keys h
    show ((if (expandPass g keys keys).length = keys.length then keys
      else expand g fuel (expandPass g keys keys))).Nodup
    split
    · exact h
    · exact ih _ (expandPass_nodup _ _ h)

theorem expand_pred {g : ReqStore} (P : String → Prop)
    (hP : ∀ c, P c → ∀ r ∈ reqOf g c, P r) :
    ∀ (fuel : Nat) (keys : List String), (∀ k ∈ keys, P k) → ∀ k ∈ expand g fuel keys, P k := by
  have haux : ∀ (cs keys : List String), (∀ c ∈ cs, P c) → (∀ k ∈ keys, P k) →
      ∀ k ∈ expandPass g cs keys, P k := by
    intro cs
    induction cs with
    | nil => intro keys _ hk k h; exact hk k h
    | cons c cs ih =>
      intro keys hcs hk k h
      refine ih _ (fun c' hc' => hcs c' (List.mem_cons_of_mem _ hc')) ?_ k h
      intro k' hk'
      rcases mem_of_mem_addKeys _ _ hk' with h' | h'
      · exact hk k' h'
      · exact hP c (hcs c (List.mem_cons_self c cs)) k' h'
  intro fuel
  induction fuel with
  | zero => intro keys hk; exact hk
  | succ fuel ih =>
    intro keys hk
    show ∀ k ∈ (if (expandPass g keys keys).length = keys.length then keys
      else expand g fuel (expandPass g keys keys)), P k
    split
    · exact hk
    · exact ih _ (haux keys keys hk hk)

theorem expand_fix {g : ReqStore} (U : List String)
    (hflat : ∀ r ∈ g.flatMap (fun p => p.2), r ∈ U) :
    ∀ (fuel : Nat) (keys : List String), keys.Nodup → (∀ k ∈ keys, k ∈ U) →
      U.length + 1 ≤ fuel + keys.length →
      expandPass g (expand g fuel keys) (expand g fuel keys) = expand g fuel keys := by
  intro fuel
  induction fuel with
  | zero =>
    intro keys hnd hsub hbud
    exfalso
    have h1 : keys.length ≤ U.length :=
      (hnd.subperm (fun x hx => hsub x hx)).length_le
    omega
  | succ fuel ih =>
    intro keys hnd hsub hbud
    have hexp : expand g (fuel + 1) keys =
        if (expandPass g keys keys).length = keys.length then keys
        else expand g fuel (expandPass g keys keys) := rfl
    by_cases h : (expandPass g keys keys).length = keys.length
    · rw [hexp, if_pos h]
      exact expandPass_eq_of_length _ _ h
    · rw [hexp, if_neg h]
      have hge : keys.length ≤ (expandPass g keys keys).length := expandPass_length_le _ _
      refine ih (expandPass g keys keys) (expandPass_nodup _ _ hnd) ?_ (by omega)
      intro k hk
      rcases mem_of_mem_expandPass _ _ hk with h' | ⟨c, _, hr⟩
      · exact hsub k h'
      · exact hflat k (reqOf_subset_flatMap g c k hr)

theorem launchKeys_fix (g : ReqStore) (root : String) :
    expandPass g (launchKeys g root) (launchKeys g root) = launchKeys g root := by
  unfold launchKeys
  refine expand_fix (reqOf g root ++ g.flatMap (fun p => p.2))
    (fun r hr => List.mem_append_right _ hr) _ _
    (addKeys_nodup _ _ List.nodup_nil) ?_ ?_
  · intro k hk
    rcases mem_of_mem_addKeys _ _ hk with h | h
    · cases h
    · exact List.mem_append_left _ h
  · have h1 : (g.flatMap (fun p => p.2)).length = (g.map (fun p => p.2.length)).sum := by
      rw [List.flatMap, List.length_flatten, List.map_map]
      rfl
    simp only [List.length_append, fuelBound, h1]
    omega

theorem launchKeys_closed (g : ReqStore) (root : String) :
    ∀ c ∈ launchKeys g root, ∀ r ∈ reqOf g c, r ∈ launchKeys g root :=
  expandPass_closed_of_eq _ _ (launchKeys_fix g root)

theorem launchKeys_nodup (g : ReqStore) (root : String) : (launchKeys g root).Nodup :=
  expand_nodup _ _ (addKeys_nodup _ _ List.nodup_nil)

theorem launchKeys_sound (g : ReqStore) (root : String) :
    ∀ k ∈ launchKeys g root, Reach g root k := by
  unfold launchKeys
  refine expand_pred (Reach g root) (fun c hc r hr => hc.tail hr) _ _ ?_
  intro k hk
  rcases mem_of_mem_addKeys _ _ hk with h | h
  · cases h
  · exact Relation.TransGen.single h

theorem reach_mem_launchKeys (g : ReqStore) (root : String) :
    ∀ i, Reach g root i → i ∈ launchKeys g root := by
  intro i h
  induction h with
  | single h' => exact mem_expand _ _ (mem_addKeys_right _ _ h')
  | tail hab hbc ih => exact launchKeys_closed g root _ ih _ hbc

/-- In a finite nonempty set of nodes in which every node has a successor
inside the set, some node lies on a cycle. -/
theorem exists_cycle_of_all_succ (R : String → String → Prop) (keys : List String)
    (hne : keys ≠ []) (hsucc : ∀ c ∈ keys, ∃ r, r ∈ keys ∧ R c r) :
    ∃ x, x ∈ keys ∧ Relation.TransGen R x x := by
  classical
  choose f hf1 hf2 using hsucc
  let seq : Nat → {x : String // x ∈ keys} := fun n =>
    Nat.rec ⟨keys.head hne, List.head_mem hne⟩ (fun _ p => ⟨f p.1 p.2, hf1 p.1 p.2⟩) n
  have hstep : ∀ n, R (seq n).1 (seq (n + 1)).1 := fun n => hf2 (seq n).1 (seq n).2
  have hchain : ∀ m n, m < n → Relation.TransGen R (seq m).1 (seq n).1 := by
    intro m n h
    induction n with
    | zero => omega
    | succ n ih =>
      rcases Nat.lt_succ_iff_lt_or_eq.mp h with h' | h'
      · exact (ih h').tail (hstep n)
      · subst h'
        exact Relation.TransGen.single (hstep m)
  have hmap : ∀ n ∈ Finset.range (keys.length + 1), (seq n).1 ∈ keys.toFinset :=
    fun n _ => List.mem_toFinset.mpr (seq n).2
  have hcard : keys.toFinset.card < (Finset.range (keys.length + 1)).card := by
    rw [Finset.card_range]
    exact Nat.lt_succ_of_le (List.toFinset_card_le keys)
  obtain ⟨m, hm, n, hn, hmn, heq⟩ :=
    Finset.exists_ne_map_eq_of_card_lt_of_maps_to hcard hmap
  rcases Nat.lt_or_ge m n with hlt | hge
  · refine ⟨(seq m).1, (seq m).2, ?_⟩
    have := hchain m n hlt
    rwa [← heq] at this
  · have hlt : n < m := Nat.lt_of_le_of_ne hge (fun h => hmn (h ▸ rfl))
    refine ⟨(seq n).1, (seq n).2, ?_⟩
    have := hchain n m hlt
    rwa [heq] at this

theorem reqOf_storeErase (store : ReqStore) (keys : List String) (l c : String) :
    reqOf (storeErase store keys l) c =
      if keys.contains c then (reqOf store c).erase l else reqOf store c := by
  unfold storeErase reqOf
  rw [List.find?_map]
  have hcomp : ((fun p : String × List String => p.1 == c) ∘
      (fun p : String × List String => if keys.contains p.1 then (p.1, p.2.erase l) else p))
      = fun p : String × List String => p.1 == c := by
    funext p
    simp only [Function.comp_apply]
    split <;> rfl
  rw [hcomp]
  cases hfind : store.find? (fun p => p.1 == c) with
  | none => simp
  | some p =>
    have hp : p.1 = c := by
      have := List.find?_some hfind
      simpa using this
    simp only [Option.map_some']
    rw [← hp]
    split <;> rfl

theorem phase2Go_err (S : String → Prop) :
    ∀ (fuel : Nat) (store : ReqStore) (keys acc : List String),
      fuel = keys.length →
      (∃ y, S y) →
      (∀ y, S y → y ∈ keys) →
      (∀ y, S y → ∃ z, S z ∧ z ∈ reqOf store y) →
      (phase2Go fuel store keys acc).1 = Except.error "Unresolvable requirements" := by
  intro fuel
  induction fuel with
  | zero =>
    intro store keys acc hfuel hne hkeys _
    exfalso
    obtain ⟨y, hy⟩ := hne
    have hmem : y ∈ keys := hkeys y hy
    have hempty : keys = [] := List.length_eq_zero.mp hfuel.symm
    rw [hempty] at hmem
    cases hmem
  | succ fuel ih =>
    intro store keys acc hfuel hne hkeys hstore
    obtain ⟨y, hy⟩ := hne
    have hmem : y ∈ keys := hkeys y hy
    have hkne : keys.isEmpty = false := by
      cases hk : keys.isEmpty
      · rfl
      · exfalso
        rw [List.isEmpty_iff] at hk
        rw [hk] at hmem
        cases hmem
    show (phase2Go (fuel + 1) store keys acc).1 = _
    rw [phase2Go, hkne]
    simp only [Bool.false_eq_true, if_false]
    cases hf : keys.find? (fun c => (reqOf store c).isEmpty) with
    | none => rfl
    | some l =>
      have hl' := List.find?_some hf
      have hl : reqOf store l = [] := List.isEmpty_iff.mp hl'
      have hlmem : l ∈ keys := List.mem_of_find?_eq_some hf
      have hlS : ¬ S l := by
        intro hSl
        obtain ⟨z, _, hzmem⟩ := hstore l hSl
        rw [hl] at hzmem
        cases hzmem
      refine ih (storeErase store (keys.erase l) l) (keys.erase l) (acc ++ [l]) ?_ ⟨y, hy⟩ ?_ ?_
      · have h1 : (keys.erase l).length + 1 = keys.length := List.length_erase_add_one hlmem
        omega
      · intro y' hy'
        have hymem : y' ∈ keys := hkeys y' hy'
        have hyne : y' ≠ l := fun h => hlS (h ▸ hy')
        exact (List.mem_erase_of_ne hyne).mpr hymem
      · intro y' hy'
        obtain ⟨z, hzS, hzmem⟩ := hstore y' hy'
        refine ⟨z, hzS, ?_⟩
        rw [reqOf_storeErase]
        have hzne : z ≠ l := fun h => hlS (h ▸ hzS)
        split
        · exact (List.mem_erase_of_ne hzne).mpr hzmem
        · exact hzmem

/-- C3: for every requirement graph (with all referenced ids defined, as
Python would otherwise abort earlier with a file-not-found error while
loading the definition) containing a cycle among ids reachable from the
root, `get_launch_order` fails with "Unresolvable requirements" (the
CycleError condition), regardless of which id is the root and of the
runtime existence predicate. -/
theorem C3_cycle_error (g : ReqStore) (root : String) (nm : String → String) (ex : String → Bool)
    (_hclosed : ∀ p ∈ g, ∀ r ∈ p.2, r ∈ g.map Prod.fst)
    (hcyc : ∃ x, Reach g root x ∧ Relation.TransGen (Edge g) x x) :
    (get_launch_order g nm ex root).1 = Except.error "Unresolvable requirements" := by
  obtain ⟨x, hreach, hcycle⟩ := hcyc
  have hSsucc : ∀ y, (Relation.ReflTransGen (Edge g) x y ∧ Relation.ReflTransGen (Edge g) y x) →
      ∃ z, (Relation.ReflTransGen (Edge g) x z ∧ Relation.ReflTransGen (Edge g) z x) ∧ Edge g y z := by
    rintro y ⟨hxy, hyx⟩
    rcases Relation.ReflTransGen.cases_head hyx with heq | ⟨z, hyz, hzx⟩
    · subst heq
      obtain ⟨z, hxz, hzx⟩ := Relation.TransGen.head'_iff.mp hcycle
      exact ⟨z, ⟨Relation.ReflTransGen.single hxz, hzx⟩, hxz⟩
    · exact ⟨z, ⟨hxy.tail hyz, hzx⟩, hyz⟩
  have hSkeys : ∀ y, (Relation.ReflTransGen (Edge g) x y ∧ Relation.ReflTransGen (Edge g) y x) →
      y ∈ launchKeys g root := by
    rintro y ⟨hxy, _⟩
    exact reach_mem_launchKeys g root y (Relation.TransGen.trans_left hreach hxy)
  have herr : (phase2 g (launchKeys g root) []).1 = Except.error "Unresolvable requirements" := by
    refine phase2Go_err (fun y => Relation.ReflTransGen (Edge g) x y ∧ Relation.ReflTransGen (Edge g) y x)
      (launchKeys g root).length g (launchKeys g root) [] rfl
      ⟨x, Relation.ReflTransGen.refl, Relation.ReflTransGen.refl⟩ hSkeys ?_
    intro y hy
    obtain ⟨z, hz, he⟩ := hSsucc y hy
    exact ⟨z, hz, he⟩
  unfold get_launch_order
  rcases hp : phase2 g (launchKeys g root) [] with ⟨res, st⟩
  rw [hp] at herr
  simp only at herr
  subst herr
  rfl

/-- C3 witness: the cycle theorem instantiated on the fixture graph
r -> a <-> b. -/
theorem C3_witness :
    (get_launch_order cycleG id (fun _ => true) "r").1
      = Except.error "Unresolvable requirements" :=
  C3_cycle_error cycleG "r" id (fun _ => true) (by decide)
    ⟨"a", Relation.TransGen.single (show ("a" : String) ∈ reqOf cycleG "r" by decide),
      Relation.TransGen.head (show ("b" : String) ∈ reqOf cycleG "a" by decide)
        (Relation.TransGen.single (show ("a" : String) ∈ reqOf cycleG "b" by decide))⟩

theorem phase2Go_ok (g : ReqStore) (root : String)
    (hacyc : ∀ i, Reach g root i → ¬ Relation.TransGen (Edge g) i i) :
    ∀ (fuel : Nat) (store : ReqStore) (keys acc : List String),
      fuel = keys.length →
      keys.Nodup → acc.Nodup →
      (∀ x, x ∈ keys → x ∉ acc) →
      (∀ x, (x ∈ keys ∨ x ∈ acc) ↔ x ∈ launchKeys g root) →
      (∀ c, c ∈ keys → (reqOf store c).Nodup ∧
        (∀ r, r ∈ reqOf store c → r ∈ reqOf g c ∧ r ∉ acc) ∧
        (∀ r, r ∈ reqOf g c → r ∈ reqOf store c ∨ r ∈ acc)) →
      (∀ i, i ∈ acc → ∀ j, j ∈ reqOf g i → j ∈ acc ∧ acc.indexOf j < acc.indexOf i) →
      ∃ ordF store2,
        phase2Go fuel store keys acc = (Except.ok ordF, store2) ∧
        ordF.Nodup ∧
        (∀ x, x ∈ ordF ↔ (x ∈ launchKeys g root ∨ x ∈ acc)) ∧
        (∀ i, i ∈ ordF → ∀ j, j ∈ reqOf g i → j ∈ ordF ∧ ordF.indexOf j < ordF.indexOf i) := by
  intro fuel
  induction fuel with
  | zero =>
    intro store keys acc hfuel hknd haccnd hdisj hKiff hJ hI4
    have hkeys : keys = [] := List.length_eq_zero.mp hfuel.symm
    subst hkeys
    refine ⟨acc, store, rfl, haccnd, ?_, ?_⟩
    · intro x
      constructor
      · intro hx
        exact Or.inr hx
      · intro hx
        rcases hx with hx | hx
        · rcases (hKiff x).mpr hx with h | h
          · cases h
          · exact h
        · exact hx
    · intro i hi j hj
      exact hI4 i hi j hj
  | succ fuel ih =>
    intro store keys acc hfuel hknd haccnd hdisj hKiff hJ hI4
    have hkne : keys ≠ [] := by
      intro h
      rw [h] at hfuel
      simp at hfuel
    have hkempty : keys.isEmpty = false := by
      cases hk : keys.isEmpty
      · rfl
      · exact absurd (List.isEmpty_iff.mp hk) hkne
    rw [phase2Go, hkempty]
    simp only [Bool.false_eq_true, if_false]
    cases hf : keys.find? (fun c => (reqOf store c).isEmpty) with
    | none =>
      exfalso
      have hnone : ∀ c ∈ keys, reqOf store c ≠ [] := by
        intro c hc hcempty
        have := List.find?_eq_none.mp hf c hc
        simp [hcempty] at this
      have hsucc : ∀ c ∈ keys, ∃ r, r ∈ keys ∧ Edge g c r := by
        intro c hc
        obtain ⟨r, hr⟩ := List.exists_mem_of_ne_nil _ (hnone c hc)
        obtain ⟨hrg, hrnacc⟩ := (hJ c hc).2.1 r hr
        have hcK : c ∈ launchKeys g root := (hKiff c).mp (Or.inl hc)
        have hrK : r ∈ launchKeys g root := launchKeys_closed g root c hcK r hrg
        rcases (hKiff r).mpr hrK with h | h
        · exact ⟨r, h, hrg⟩
        · exact absurd h hrnacc
      obtain ⟨x, hxmem, hxcyc⟩ := exists_cycle_of_all_succ (Edge g) keys hkne hsucc
      have hxK : x ∈ launchKeys g root := (hKiff x).mp (Or.inl hxmem)
      exact hacyc x (launchKeys_sound g root x hxK) hxcyc
    | some l =>
      have hl' := List.find?_some hf
      have hlstore : reqOf store l = [] := List.isEmpty_iff.mp hl'
      have hlmem : l ∈ keys := List.mem_of_find?_eq_some hf
      have hlnacc : l ∉ acc := hdisj l hlmem
      have hlK : l ∈ launchKeys g root := (hKiff l).mp (Or.inl hlmem)
      have hreql : ∀ r, r ∈ reqOf g l → r ∈ acc := by
        intro r hr
        rcases (hJ l hlmem).2.2 r hr with h | h
        · rw [hlstore] at h
          cases h
        · exact h
      have hfuel' : fuel = (keys.erase l).length := by
        have h1 : (keys.erase l).length + 1 = keys.length := List.length_erase_add_one hlmem
        omega
      have hknd' : (keys.erase l).Nodup := hknd.erase l
      have haccnd' : (acc ++ [l]).Nodup := by
        refine haccnd.append (List.nodup_singleton l) ?_
        intro x hx hx'
        rw [List.mem_singleton] at hx'
        subst hx'
        exact hlnacc hx
      have hdisj' : ∀ x, x ∈ keys.erase l → x ∉ acc ++ [l] := by
        intro x hx hx'
        obtain ⟨hxne, hxmem⟩ := hknd.mem_erase_iff.mp hx
        rcases List.mem_append.mp hx' with h | h
        · exact hdisj x hxmem h
        · exact hxne (List.mem_singleton.mp h)
      have hKiff' : ∀ x, (x ∈ keys.erase l ∨ x ∈ acc ++ [l]) ↔ x ∈ launchKeys g root := by
        intro x
        constructor
        · intro hx
          rcases hx with hx | hx
          · exact (hKiff x).mp (Or.inl (hknd.mem_erase_iff.mp hx).2)
          · rcases List.mem_append.mp hx with h | h
            · exact (hKiff x).mp (Or.inr h)
            · rw [List.mem_singleton.mp h]
              exact hlK
        · intro hx
          rcases (hKiff x).mpr hx with h | h
          · by_cases hxl : x = l
            · subst hxl
              exact Or.inr (List.mem_append_right _ (List.mem_singleton.mpr rfl))
            · exact Or.inl (hknd.mem_erase_iff.mpr ⟨hxl, h⟩)
          · exact Or.inr (List.mem_append_left _ h)
      have hstore' : ∀ c, c ∈ keys.erase l →
          reqOf (storeErase store (keys.erase l) l) c = (reqOf store c).erase l := by
        intro c hc
        rw [reqOf_storeErase]
        rw [if_pos (contains_mem.mpr hc)]
      have hJ' : ∀ c, c ∈ keys.erase l →
          (reqOf (storeErase store (keys.erase l) l) c).Nodup ∧
          (∀ r, r ∈ reqOf (storeErase store (keys.erase l) l) c →
            r ∈ reqOf g c ∧ r ∉ acc ++ [l]) ∧
          (∀ r, r ∈ reqOf g c →
            r ∈ reqOf (storeErase store (keys.erase l) l) c ∨ r ∈ acc ++ [l]) := by
        intro c hc
        have hcmem : c ∈ keys := (hknd.mem_erase_iff.mp hc).2
        obtain ⟨hnd, hfwd, hbwd⟩ := hJ c hcmem
        rw [hstore' c hc]
        refine ⟨hnd.erase l, ?_, ?_⟩
        · intro r hr
          obtain ⟨hrne, hrmem⟩ := hnd.mem_erase_iff.mp hr
          obtain ⟨hrg, hrnacc⟩ := hfwd r hrmem
          refine ⟨hrg, ?_⟩
          intro hr'
          rcases List.mem_append.mp hr' with h | h
          · exact hrnacc h
          · exact hrne (List.mem_singleton.mp h)
        · intro r hr
          rcases hbwd r hr with h | h
          · by_cases hrl : r = l
            · subst hrl
              exact Or.inr (List.mem_append_right _ (List.mem_singleton.mpr rfl))
            · exact Or.inl (hnd.mem_erase_iff.mpr ⟨hrl, h⟩)
          · exact Or.inr (List.mem_append_left _ h)
      have hI4' : ∀ i, i ∈ acc ++ [l] → ∀ j, j ∈ reqOf g i →
          j ∈ acc ++ [l] ∧ (acc ++ [l]).indexOf j < (acc ++ [l]).indexOf i := by
        intro i hi j hj
        rcases List.mem_append.mp hi with hia | hil
        · obtain ⟨hjacc, hjlt⟩ := hI4 i hia j hj
          refine ⟨List.mem_append_left _ hjacc, ?_⟩
          rw [List.indexOf_append_of_mem hjacc, List.indexOf_append_of_mem hia]
          exact hjlt
        · rw [List.mem_singleton.mp hil] at hj ⊢
          have hjacc : j ∈ acc := hreql j hj
          refine ⟨List.mem_append_left _ hjacc, ?_⟩
          rw [List.indexOf_append_of_mem hjacc, List.indexOf_append_of_not_mem hlnacc]
          have h1 : acc.indexOf j < acc.length := List.indexOf_lt_length.mpr hjacc
          have h2 : List.indexOf l [l] = 0 := List.indexOf_cons_self l []
          omega
      obtain ⟨ordF, store2, heq, hnd, hmemF, hordF⟩ :=
        ih (storeErase store (keys.erase l) l) (keys.erase l) (acc ++ [l])
          hfuel' hknd' haccnd' hdisj' hKiff' hJ' hI4'
      refine ⟨ordF, store2, heq, hnd, ?_, hordF⟩
      intro x
      rw [hmemF x]
      constructor
      · intro hx
        rcases hx with hx | hx
        · exact Or.inl hx
        · rcases List.mem_append.mp hx with h | h
          · exact Or.inr h
          · rw [List.mem_singleton.mp h]
            exact Or.inl hlK
      · intro hx
        rcases hx with hx | hx
        · exact Or.inl hx
        · exact Or.inr (List.mem_append_left _ hx)

/-- C2 (amended): for every requirement graph whose referenced ids are all
defined and whose requires lists are free of duplicate entries, if the graph
is acyclic over the ids reachable from the root and every reachable id
exists in the runtime, then `get_launch_order` succeeds, and its order
contains every transitively reachable id exactly once with every id
appearing after all of its own requirements. -/
theorem C2_amended (g : ReqStore) (root : String) (nm : String → String) (ex : String → Bool)
    (_hclosed : ∀ p ∈ g, ∀ r ∈ p.2, r ∈ g.map Prod.fst)
    (hnodupreq : ∀ p ∈ g, p.2.Nodup)
    (hex : ∀ i, Reach g root i → ex i = true)
    (hacyc : ∀ i, Reach g root i → ¬ Relation.TransGen (Edge g) i i) :
    ∃ order store2,
      get_launch_order g nm ex root = (Except.ok order, store2) ∧
      order.Nodup ∧
      (∀ i, i ∈ order ↔ Reach g root i) ∧
      (∀ i, i ∈ order → ∀ j, j ∈ reqOf g i → order.indexOf j < order.indexOf i) := by
  obtain ⟨ordF, store2, heq, hnd, hmemF, hordF⟩ := phase2Go_ok g root hacyc
    (launchKeys g root).length g (launchKeys g root) [] rfl
    (launchKeys_nodup g root) List.nodup_nil
    (fun x _ h => by cases h)
    (fun x => by simp)
    (fun c hc => ⟨reqOf_nodup g hnodupreq c,
      fun r hr => ⟨hr, fun h => by cases h⟩,
      fun r hr => Or.inl hr⟩)
    (fun i hi => by cases hi)
  have hreachiff : ∀ i, i ∈ ordF ↔ Reach g root i := by
    intro i
    rw [hmemF i]
    constructor
    · intro h
      rcases h with h | h
      · exact launchKeys_sound g root i h
      · cases h
    · intro h
      exact Or.inl (reach_mem_launchKeys g root i h)
  have hp : phase2 g (launchKeys g root) [] = (Except.ok ordF, store2) := heq
  have hfnone : ordF.find? (fun l => !ex l) = none := by
    rw [List.find?_eq_none]
    intro x hx
    have hr : Reach g root x := (hreachiff x).mp hx
    simp [hex x hr]
  refine ⟨ordF, store2, ?_, hnd, hreachiff, fun i hi j hj => (hordF i hi j hj).2⟩
  unfold get_launch_order
  rw [hp]
  dsimp only
  rw [hfnone]

theorem chainG_edges (x y : String) :
    Edge chainG x y ↔ (x = "r" ∧ y = "a") ∨ (x = "a" ∧ y = "b") := by
  unfold Edge reqOf chainG
  by_cases h1 : x = "r"
  · subst h1
    simp [List.find?]
  · by_cases h2 : x = "a"
    · subst h2
      simp [List.find?]
    · by_cases h3 : x = "b"
      · subst h3
        simp [List.find?]
      · have b1 : ("r" == x) = false := beq_eq_false_iff_ne.mpr (fun h => h1 h.symm)
        have b2 : ("a" == x) = false := beq_eq_false_iff_ne.mpr (fun h => h2 h.symm)
        have b3 : ("b" == x) = false := beq_eq_false_iff_ne.mpr (fun h => h3 h.symm)
        simp [List.find?, b1, b2, b3, h1, h2]

theorem dupG_edges (x y : String) :
    Edge dupG x y ↔ (x = "r" ∧ y = "a") ∨ (x = "a" ∧ y = "b") := by
  unfold Edge reqOf dupG
  by_cases h1 : x = "r"
  · subst h1
    simp [List.find?]
  · by_cases h2 : x = "a"
    · subst h2
      simp [List.find?]
    · by_cases h3 : x = "b"
      · subst h3
        simp [List.find?]
      · have b1 : ("r" == x) = false := beq_eq_false_iff_ne.mpr (fun h => h1 h.symm)
        have b2 : ("a" == x) = false := beq_eq_false_iff_ne.mpr (fun h => h2 h.symm)
        have b3 : ("b" == x) = false := beq_eq_false_iff_ne.mpr (fun h => h3 h.symm)
        simp [List.find?, b1, b2, b3, h1, h2]

theorem acyc_of_chain_edges (g : ReqStore)
    (hedges : ∀ x y, Edge g x y ↔ (x = "r" ∧ y = "a") ∨ (x = "a" ∧ y = "b")) :
    ∀ i, Reach g "r" i → ¬ Relation.TransGen (Edge g) i i := by
  have hpairs : ∀ x y, Relation.TransGen (Edge g) x y →
      (x = "r" ∧ y = "a") ∨ (x = "r" ∧ y = "b") ∨ (x = "a" ∧ y = "b") := by
    intro x y h
    induction h with
    | single h' =>
      rcases (hedges _ _).mp h' with ⟨hx, hy⟩ | ⟨hx, hy⟩
      · exact Or.inl ⟨hx, hy⟩
      · exact Or.inr (Or.inr ⟨hx, hy⟩)
    | tail hab hbc ih =>
      rcases ih with ⟨hx, hb⟩ | ⟨hx, hb⟩ | ⟨hx, hb⟩
      · subst hb
        rcases (hedges _ _).mp hbc with ⟨hb', _⟩ | ⟨_, hy⟩
        · exact absurd hb' (by decide)
        · exact Or.inr (Or.inl ⟨hx, hy⟩)
      · subst hb
        rcases (hedges _ _).mp hbc with ⟨hb', _⟩ | ⟨hb', _⟩
        · exact absurd hb' (by decide)
        · exact absurd hb' (by decide)
      · subst hb
        rcases (hedges _ _).mp hbc with ⟨hb', _⟩ | ⟨hb', _⟩
        · exact absurd hb' (by decide)
        · exact absurd hb' (by decide)
  intro i _ hcyc
  rcases hpairs i i hcyc with ⟨h1, h2⟩ | ⟨h1, h2⟩ | ⟨h1, h2⟩ <;>
    (subst h1; exact absurd h2 (by decide))

theorem chainG_acyc : ∀ i, Reach chainG "r" i → ¬ Relation.TransGen (Edge chainG) i i :=
  acyc_of_chain_edges chainG chainG_edges

theorem dupG_acyc : ∀ i, Reach dupG "r" i → ¬ Relation.TransGen (Edge dupG) i i :=
  acyc_of_chain_edges dupG dupG_edges

/-- C2, counterexample: the claim as stated fails on the code.  The graph
r -> a -> b is acyclic, but because container a lists its requirement b
twice, the elimination loop (which removes only one occurrence of a
launched id per requires list) gets stuck and `get_launch_order` raises
"Unresolvable requirements" instead of producing an order. -/
theorem C2_counterexample :
    (∀ i, Reach dupG "r" i → ¬ Relation.TransGen (Edge dupG) i i) ∧
    (get_launch_order dupG id (fun _ => true) "r").1
      = Except.error "Unresolvable requirements" :=
  ⟨dupG_acyc, rfl⟩

/-- C2 witness: the amended theorem instantiated on the duplicate-free
chain r -> a -> b. -/
theorem C2_witness :
    ∃ order store2,
      get_launch_order chainG id (fun _ => true) "r" = (Except.ok order, store2) ∧
      order.Nodup ∧
      (∀ i, i ∈ order ↔ Reach chainG "r" i) ∧
      (∀ i, i ∈ order → ∀ j, j ∈ reqOf chainG i → order.indexOf j < order.indexOf i) :=
  C2_amended chainG "r" id (fun _ => true) (by decide) (by decide) (fun i _ => rfl)
    chainG_acyc

theorem check_requirements_snd (nm : String → String) (ex running : String → Bool)
    (selfName : String) :
    ∀ (rs : List String) (st : List Ev × Bool),
      (rs.foldl (checkStep nm ex running selfName false) st).2
        = (st.2 && rs.all (fun r => ex r && running r)) := by
  intro rs
  induction rs with
  | nil => intro st; simp
  | cons r rs ih =>
    intro st
    show (rs.foldl _ (checkStep nm ex running selfName false st r)).2 = _
    rw [ih]
    unfold checkStep
    by_cases h1 : ex r = true
    · by_cases h2 : running r = true
      · simp [h1, h2]
      · rw [Bool.not_eq_true] at h2
        simp [h1, h2]
    · rw [Bool.not_eq_true] at h1
      simp [h1]

theorem check_requirements_false_iff (nm : String → String) (ex running : String → Bool)
    (selfName : String) (rs : List String) :
    (check_requirements nm ex running selfName rs false).2 = false ↔
      ∃ r ∈ rs, ex r = false ∨ running r = false := by
  unfold check_requirements
  rw [check_requirements_snd]
  simp only [Bool.true_and]
  constructor
  · intro h
    have h' : ¬(rs.all (fun r => ex r && running r) = true) := by simp [h]
    rw [List.all_eq_true] at h'
    push_neg at h'
    obtain ⟨r, hr, hbad⟩ := h'
    refine ⟨r, hr, ?_⟩
    cases hex : ex r
    · exact Or.inl rfl
    · cases hrun : running r
      · exact Or.inr rfl
      · exact absurd (by simp [hex, hrun]) hbad
  · intro ⟨r, hr, hbad⟩
    cases hall : rs.all (fun r => ex r && running r)
    · rfl
    · exfalso
      rw [List.all_eq_true] at hall
      have := hall r hr
      rcases hbad with h | h <;> simp [h] at this

theorem check_requirements_events (nm : String → String) (ex running : String → Bool)
    (selfName : String) (ign : Bool) (P : Ev → Prop) (hP : ∀ n m, P (Ev.log n m)) :
    ∀ (rs : List String) (st : List Ev × Bool), (∀ e ∈ st.1, P e) →
      ∀ e ∈ (rs.foldl (checkStep nm ex running selfName ign) st).1, P e := by
  intro rs
  induction rs with
  | nil => intro st h e he; exact h e he
  | cons r rs ih =>
    intro st h e he
    refine ih (checkStep nm ex running selfName ign st r) ?_ e he
    intro e' he'
    unfold checkStep at he'
    split at he'
    · rcases List.mem_append.mp he' with h' | h'
      · exact h e' h'
      · rw [List.mem_singleton.mp h']
        exact hP _ _
    · split at he'
      · rcases List.mem_append.mp he' with h' | h'
        · exact h e' h'
        · rw [List.mem_singleton.mp h']
          exact hP _ _
      · exact h e' he'

/-- C4 (amended): `create` requires all direct requirements to exist and
to be running — it invokes `check_requirements` with the default
ignore-stopped flag False.  When the check fails, create logs
"Requirements not met" and never invokes the runtime's launch primitive. -/
theorem C4_create_aborts (c : ContainerData) (nm : String → String)
    (ex running : String → Bool) (launchOk : Bool)
    (h : ∃ r ∈ c.requires, ex r = false ∨ running r = false) :
    (create c nm ex running launchOk).all (fun e => !(isLaunch e)) = true ∧
    Ev.log c.name "Requirements not met" ∈ create c nm ex running launchOk := by
  have hsnd : (check_requirements nm ex running c.name c.requires false).2 = false :=
    (check_requirements_false_iff nm ex running c.name c.requires).mpr h
  simp only [create, hsnd, Bool.not_false, if_true]
  constructor
  · rw [List.all_eq_true]
    intro e he
    rcases List.mem_append.mp he with h' | h'
    · rcases List.mem_append.mp h' with h'' | h''
      · rw [List.mem_singleton.mp h'']
        rfl
      · have := check_requirements_events nm ex running c.name false
          (fun e => isLaunch e = false) (fun _ _ => rfl) c.requires ([], true)
          (fun e he => by cases he) e h''
        simp [this]
    · rw [List.mem_singleton.mp h']
      rfl
  · exact List.mem_append_right _ (List.mem_singleton.mpr rfl)

/-- C4, counterexample: a container whose single requirement exists but is
not running.  All direct requirements exist, yet `create` aborts with
"Requirements not met" and issues no launch, refuting the claim that
existence alone suffices. -/
theorem C4_counterexample :
    (∀ r ∈ stoppedReqC.requires, (fun _ => true : String → Bool) r = true) ∧
    (create stoppedReqC id (fun _ => true) (fun _ => false) true).all
      (fun e => !(isLaunch e)) = true ∧
    Ev.log "C" "Requirements not met" ∈
      create stoppedReqC id (fun _ => true) (fun _ => false) true := by decide

/-- C4 witness: the amended theorem instantiated at a requirement that
exists but is stopped. -/
theorem C4_witness :
    (create stoppedReqC id (fun _ => true) (fun _ => false) true).all
      (fun e => !(isLaunch e)) = true ∧
    Ev.log "C" "Requirements not met" ∈
      create stoppedReqC id (fun _ => true) (fun _ => false) true :=
  C4_create_aborts stoppedReqC id (fun _ => true) (fun _ => false) true
    ⟨"b", by decide, Or.inr rfl⟩

theorem up_error_no_start (g : ReqStore) (nm : String → String) (ex : String → Bool)
    (running : List String) (cid : String) (rec : Bool) (tr : List Ev) (rs : List String)
    (e : String) (h : up g nm ex running cid rec = (tr, rs, some e)) :
    tr.all (fun ev => !(isStart ev)) = true := by
  unfold up at h
  split at h
  · simp at h
  · simp only at h
    split at h
    · simp at h
    · split at h
      · split at h
        · simp only [Prod.mk.injEq] at h
          obtain ⟨h1, _, _⟩ := h
          rw [← h1, List.all_eq_true]
          intro ev hev
          have hlog := check_requirements_events nm ex (fun r => running.contains r) (nm cid)
            rec (fun ev => isStart ev = false) (fun _ _ => rfl) (reqOf g cid) ([], true)
            (fun e' he' => by cases he') ev hev
          simp [hlog]
        · simp at h
      · simp at h

/-- C9: if the Kahn elimination succeeds with some order containing an
entry absent from the runtime, `get_launch_order` fails with the
MissingDependency message naming an absent container; and whenever `up`
propagates an error from `get_launch_order`, its trace contains no start
event — the failure is raised before any instance is started. -/
theorem C9_missing_dependency (g : ReqStore) (root : String) (nm : String → String) (ex : String → Bool)
    (order : List String) (st2 : ReqStore) (l : String)
    (hph : phase2 g (launchKeys g root) [] = (Except.ok order, st2))
    (hl : l ∈ order) (hex : ex l = false) :
    (∃ ll, ll ∈ order ∧ ex ll = false ∧
      get_launch_order g nm ex root = (Except.error (missingMsg nm ll), st2)) ∧
    (∀ (running : List String) (cid : String) (rec : Bool) (tr : List Ev)
        (rs : List String) (e : String),
      up g nm ex running cid rec = (tr, rs, some e) →
      tr.all (fun ev => !(isStart ev)) = true) := by
  constructor
  · unfold get_launch_order
    rw [hph]
    dsimp only
    cases hfind : order.find? (fun l => !(ex l)) with
    | none =>
      exfalso
      have := List.find?_eq_none.mp hfind l hl
      simp [hex] at this
    | some ll =>
      have hmem : ll ∈ order := List.mem_of_find?_eq_some hfind
      have hp := List.find?_some hfind
      have hexll : ex ll = false := by
        have : (!(ex ll)) = true := hp
        simp at this
        exact this
      exact ⟨ll, hmem, hexll, rfl⟩
  · intro running cid rec tr rs e h
    exact up_error_no_start g nm ex running cid rec tr rs e h

/-- C9 witness: the missing-dependency theorem instantiated on a graph
whose single dependency is absent from the runtime. -/
theorem C9_witness :
    (∃ ll, ll ∈ ["a"] ∧ (fun c => c != "a") ll = false ∧
      get_launch_order missG id (fun c => c != "a") "r"
        = (Except.error (missingMsg id ll), [("r", ["a"]), ("a", [])])) ∧
    (∀ (running : List String) (cid : String) (rec : Bool) (tr : List Ev)
        (rs : List String) (e : String),
      up missG id (fun c => c != "a") running cid rec = (tr, rs, some e) →
      tr.all (fun ev => !(isStart ev)) = true) :=
  C9_missing_dependency missG "r" id (fun c => c != "a") ["a"] [("r", ["a"]), ("a", [])] "a"
    rfl (by decide) (by decide)

/-- C5, code bug: computing a launch order mutates the `requires` lists of
the loaded containers.  `get_launch_order` aliases each container's
`requires` list in its working map and removes launched ids in place, so
after a successful resolution container a's stored `requires` list is empty
although its definition lists b. -/
theorem C5_requires_mutated :
    (get_launch_order chainG id (fun _ => true) "r").1 = Except.ok ["b", "a"] ∧
    reqOf chainG "a" = ["b"] ∧
    reqOf (get_launch_order chainG id (fun _ => true) "r").2 "a" = [] := by
  refine ⟨rfl, rfl, rfl⟩

/-- C6: invoking `nat` twice in succession on a running container leaves
the same rule table as invoking it once.  (The property holds degenerately:
the `ports` iterator is exhausted by the first invocation, so the second
one iterates nothing and changes no rules.) -/
theorem C6_nat_idempotent (selfName : String) (ipOf : String → String)
    (c : ContainerIter) (rules : List NatRule) :
    (natC selfName true ipOf (natC selfName true ipOf c rules).1
        (natC selfName true ipOf c rules).2.1).2.1
      = (natC selfName true ipOf c rules).2.1 := by
  simp [natC]

/-- C7: `ports` and `mountpoints` are single-use iterators.  After `nat`
on a running container or `denat` has fully iterated the ports, the
iterator is empty and every subsequent `nat` or `denat` produces no events
and leaves the rule table unchanged; likewise a second `mount` adds no
devices and only issues the final save. -/
theorem C7_single_use_iterators (selfName : String) (ipOf : String → String)
    (c : ContainerIter) (rules rules2 : List NatRule) (devices devices2 : List String) :
    (natC selfName true ipOf c rules).1.ports = [] ∧
    (denatC selfName ipOf c rules).1.ports = [] ∧
    (natC selfName true ipOf (natC selfName true ipOf c rules).1 rules2).2.2 = [] ∧
    (natC selfName true ipOf (natC selfName true ipOf c rules).1 rules2).2.1 = rules2 ∧
    (denatC selfName ipOf (natC selfName true ipOf c rules).1 rules2).2.2 = [] ∧
    (denatC selfName ipOf (natC selfName true ipOf c rules).1 rules2).2.1 = rules2 ∧
    (natC selfName true ipOf (denatC selfName ipOf c rules).1 rules2).2.2 = [] ∧
    (mountC selfName c devices).1.mountpoints = [] ∧
    (mountC selfName (mountC selfName c devices).1 devices2).2.2 = [NEv.saveEv] ∧
    (mountC selfName (mountC selfName c devices).1 devices2).2.1 = devices2 := by
  refine ⟨rfl, rfl, ?_, ?_, ?_, ?_, ?_, rfl, ?_, ?_⟩ <;> simp [natC, denatC, mountC]

theorem runSteps_failfast (t : Templating) (cv params : VarMap) (cid selfName : String)
    (exitOf : String → Int) (s : String)
    (hfail : exitOf (t.apply s (some cv) (some params)) ≠ 0) :
    ∀ (pre post : List Step),
      (∀ st ∈ pre, ∃ ps, st = Step.shellLine ps ∧
        exitOf (t.apply ps (some cv) (some params)) = 0) →
      runSteps t cv params cid selfName exitOf (pre ++ Step.shellLine s :: post)
        = runSteps t cv params cid selfName exitOf (pre ++ [Step.shellLine s]) ∧
      ∃ tr, runSteps t cv params cid selfName exitOf (pre ++ [Step.shellLine s])
        = tr ++ [AEv.log selfName "Execution failed"] := by
  intro pre
  induction pre with
  | nil =>
    intro post _
    constructor
    · show runSteps t cv params cid selfName exitOf (Step.shellLine s :: post) = _
      simp [runSteps, hfail]
    · refine ⟨[AEv.log selfName (t.apply s (some cv) (some params)),
        AEv.execEv cid (t.apply s (some cv) (some params))], ?_⟩
      simp [runSteps, hfail]
  | cons p pre ih =>
    intro post hpre
    obtain ⟨ps, hp, hps⟩ := hpre p (List.mem_cons_self p pre)
    subst hp
    have ihh := ih post (fun st hst => hpre st (List.mem_cons_of_mem _ hst))
    constructor
    · show runSteps t cv params cid selfName exitOf
          (Step.shellLine ps :: (pre ++ Step.shellLine s :: post)) = _
      simp only [runSteps, hps, if_pos, if_true]
      simp only [List.cons_append, List.append_assoc]
      rw [ihh.1]
      rfl
    · obtain ⟨tr, htr⟩ := ihh.2
      refine ⟨[AEv.log selfName (t.apply ps (some cv) (some params)),
        AEv.execEv cid (t.apply ps (some cv) (some params))] ++ tr, ?_⟩
      show runSteps t cv params cid selfName exitOf
          (Step.shellLine ps :: (pre ++ [Step.shellLine s])) = _
      simp only [runSteps, hps, if_pos, if_true]
      rw [htr]
      simp

/-- C8: action execution is fail-fast.  If the steps of an action are a
prefix of succeeding shell lines followed by a shell line whose resolved
command exits non-zero, execution is identical to running only up to the
failing step (later steps are never attempted) and the trace ends with the
"Execution failed" log. -/
theorem C8_failfast (t : Templating) (cv params : VarMap) (cid selfName : String)
    (exitOf : String → Int) (aname : String) (pre post : List Step) (s : String)
    (hpre : ∀ st ∈ pre, ∃ ps, st = Step.shellLine ps ∧
      exitOf (t.apply ps (some cv) (some params)) = 0)
    (hfail : exitOf (t.apply s (some cv) (some params)) ≠ 0) :
    execute_action t [(aname, pre ++ Step.shellLine s :: post)] cid selfName cv params
        exitOf aname
      = execute_action t [(aname, pre ++ [Step.shellLine s])] cid selfName cv params
        exitOf aname ∧
    (execute_action t [(aname, pre ++ Step.shellLine s :: post)] cid selfName cv params
        exitOf aname).getLast? = some (AEv.log selfName "Execution failed") := by
  have hff := runSteps_failfast t cv params cid selfName exitOf s hfail pre post hpre
  have hfind : (([(aname, pre ++ Step.shellLine s :: post)] :
      List (String × List Step)).find? (fun p => p.1 == aname)) =
      some (aname, pre ++ Step.shellLine s :: post) := by
    simp [List.find?]
  have hfind2 : (([(aname, pre ++ [Step.shellLine s])] :
      List (String × List Step)).find? (fun p => p.1 == aname)) =
      some (aname, pre ++ [Step.shellLine s]) := by
    simp [List.find?]
  constructor
  · unfold execute_action
    rw [hfind, hfind2]
    dsimp only
    rw [hff.1]
  · unfold execute_action
    rw [hfind]
    dsimp only
    rw [hff.1]
    obtain ⟨tr, htr⟩ := hff.2
    rw [htr]
    rw [show AEv.log selfName ("Execute action \"" ++ aname ++ "\"") ::
        (tr ++ [AEv.log selfName "Execution failed"])
      = (AEv.log selfName ("Execute action \"" ++ aname ++ "\"") :: tr)
        ++ [AEv.log selfName "Execution failed"] from rfl]
    exact List.getLast?_concat _

/-- C8 witness: an action of three shell steps whose second step fails;
the third is never executed. -/
theorem C8_witness :
    execute_action ⟨[]⟩ [("act", [Step.shellLine "a", Step.shellLine "b", Step.shellLine "c"])]
        "cid" "N" [] [] (fun t => if t = "b" then 1 else 0) "act"
      = execute_action ⟨[]⟩ [("act", [Step.shellLine "a", Step.shellLine "b"])]
        "cid" "N" [] [] (fun t => if t = "b" then 1 else 0) "act" ∧
    (execute_action ⟨[]⟩ [("act", [Step.shellLine "a", Step.shellLine "b", Step.shellLine "c"])]
        "cid" "N" [] [] (fun t => if t = "b" then 1 else 0) "act").getLast?
      = some (AEv.log "N" "Execution failed") :=
  C8_failfast ⟨[]⟩ [] [] "cid" "N" (fun t => if t = "b" then 1 else 0) "act"
    [Step.shellLine "a"] [Step.shellLine "c"] "b"
    (fun st hst => by
      rw [List.mem_singleton] at hst
      subst hst
      exact ⟨"a", rfl, by decide⟩)
    (by decide)

end Tepe
